import Mathlib

/-!
Verification of the opinion-filtering and sentiment-scoring pipeline of
`src/app.py` (celebrity Twitter sentiment app).

Texts are modelled as `List Char` (Python `str`); the VADER polarity engine is
an abstract parameter `engine : List Char → ℚ` (the spec treats it as an
external capability returning a compound score in `[-1, 1]`); Python floats are
modelled as exact rationals, with `round(x, n)` modelled as round-half-to-even
on rationals (Python's rounding mode).
-/

namespace SentimentApp

/-- Python whitespace (`str.split` / `\s` in `re`), ASCII range. -/
def pySpace (c : Char) : Bool :=
  c = ' ' || c = '\t' || c = '\n' || c = '\r' || c = '\x0b' || c = '\x0c'

/-- Python `str.strip()`: drop leading and trailing whitespace. -/
def pyStrip (cs : List Char) : List Char :=
  ((cs.dropWhile pySpace).reverse.dropWhile pySpace).reverse

/-- Boolean list-prefix test (Python `str.startswith`). -/
def isPre : List Char → List Char → Bool
  | [], _ => true
  | _ :: _, [] => false
  | a :: as, b :: bs => a == b && isPre as bs

/-- Boolean contiguous-substring test (Python `in` on `str`). -/
def hasSub (w : List Char) : List Char → Bool
  | [] => isPre w []
  | c :: cs => isPre w (c :: cs) || hasSub w cs

/-- The ten case-sensitive announcement markers rejected by `clean_text`
(src/app.py lines 37-40). -/
def rejectedStarts : List (List Char) :=
  [("BREAKING:").data, ("Breaking:").data, ("UPDATE:").data, ("WATCH:").data,
   ("NEW:").data, ("EXCLUSIVE:").data, ("REPORT:").data, ("Report:").data,
   ("JUST IN:").data, ("Just in:").data]

/-- Is the first character a non-whitespace character?  (`\S` matching.) -/
def headNonSpace : List Char → Bool
  | [] => false
  | c :: _ => !pySpace c

/-- One attempted match of the regex `http\S+|www\S+|https\S+` at the start of
`cs` (src/app.py line 44).  Python's `re` tries the alternatives left to right;
`\S+` is greedy, so a match always extends to the next whitespace (or the end).
On success, returns the remainder of the string after the match. -/
def urlMatch (cs : List Char) : Option (List Char) :=
  if isPre (("http").data) cs && headNonSpace (cs.drop 4) then
    some ((cs.drop 4).dropWhile (fun c => !pySpace c))
  else if isPre (("www").data) cs && headNonSpace (cs.drop 3) then
    some ((cs.drop 3).dropWhile (fun c => !pySpace c))
  else if isPre (("https").data) cs && headNonSpace (cs.drop 5) then
    some ((cs.drop 5).dropWhile (fun c => !pySpace c))
  else none

/-- `re.sub(r'http\S+|www\S+|https\S+', '', text)`: scan left to right, delete
every match.  `fuel` only bounds the recursion; `stripURLs` supplies enough. -/
def stripURLsAux : Nat → List Char → List Char
  | 0, _ => []
  | _ + 1, [] => []
  | fuel + 1, c :: rest =>
    match urlMatch (c :: rest) with
    | some tail => stripURLsAux fuel tail
    | none => c :: stripURLsAux fuel rest

/-- URL removal from src/app.py line 44 (the `re.MULTILINE` flag only affects
`^`/`$`, which do not occur in the pattern). -/
def stripURLs (cs : List Char) : List Char :=
  stripURLsAux cs.length cs

/-- Does some position of `cs` start a match of `http\S+|www\S+|https\S+`?
("contains a substring matching the URL pattern".) -/
def hasURL : List Char → Bool
  | [] => false
  | c :: rest => (urlMatch (c :: rest)).isSome || hasURL rest

/-- Python `str.split()` (no argument): maximal runs of non-whitespace. -/
def pySplitAux : List Char → List Char → List (List Char)
  | [], acc => if acc.isEmpty then [] else [acc.reverse]
  | c :: cs, acc =>
    if pySpace c then
      if acc.isEmpty then pySplitAux cs [] else acc.reverse :: pySplitAux cs []
    else pySplitAux cs (c :: acc)

/-- Python `text.split()`. -/
def pySplit (cs : List Char) : List (List Char) :=
  pySplitAux cs []

/-- Python `' '.join(tokens)`. -/
def joinSpace : List (List Char) → List Char
  | [] => []
  | [t] => t
  | t :: ts => t ++ ' ' :: joinSpace ts

/-- `clean_text` from src/app.py lines 31-53.  The empty string models the
"absent" NormalizedText (the code returns `""` and the caller filters on
length > 0). -/
def clean_text (text : List Char) : List Char :=
  if rejectedStarts.any (fun p => isPre p (pyStrip text)) then []
  else
    let t1 := stripURLs text
    let t2 := joinSpace (pySplit t1)
    if (pySplit t2).length < 3 then [] else t2

/-- The fixed opinion-marker vocabulary (src/app.py lines 71-76). -/
def opinionWords : List (List Char) :=
  [("think").data, ("feel").data, ("believe").data, ("opinion").data,
   ("love").data, ("hate").data, ("amazing").data, ("terrible").data,
   ("worst").data, ("best").data, ("overrated").data, ("underrated").data,
   ("deserves").data, ("should").data, ("would").data, ("could").data,
   ("great").data, ("awful").data, ("bad").data, ("good").data,
   ("fantastic").data, ("horrible").data]

/-- Python `str.lower()` (ASCII case folding suffices for this pipeline). -/
def pyLower (cs : List Char) : List Char :=
  cs.map Char.toLower

/-- `has_opinion` from src/app.py line 78:
`any(word in text.lower() for word in opinion_words)` — Python `in` on strings
is a contiguous-substring test. -/
def hasOpinion (text : List Char) : Bool :=
  opinionWords.any (fun w => hasSub w (pyLower text))

/-- Modelled from the spec (section 4.2 as read by the claim): `has_opinion`
as a membership test over the whitespace-delimited tokens of the lowercased
text, to be compared with the source's substring test `hasOpinion`. -/
def hasOpinionTokens (text : List Char) : Bool :=
  (pySplit (pyLower text)).any (fun t => opinionWords.contains t)

/-- Round half to even on an exact rational (the rounding of Python's builtin
`round` on a value an exact binary float would represent). -/
def rhe (q : ℚ) : ℤ :=
  let f : ℤ := Int.floor q
  if q - f < 1 / 2 then f
  else if 1 / 2 < q - f then f + 1
  else if f % 2 = 0 then f else f + 1

/-- Python `round(x, 2)` on exact rationals. -/
def round2 (q : ℚ) : ℚ :=
  (rhe (q * 100) : ℚ) / 100

/-- Python/pandas `round(x, 1)` on exact rationals. -/
def round1 (q : ℚ) : ℚ :=
  (rhe (q * 10) : ℚ) / 10

/-- The record returned by `analyze_sentiment` (src/app.py lines 103-107). -/
structure SentimentResult where
  sentiment : String
  confidence : ℚ
  compound : ℚ
  deriving DecidableEq, Repr

/-- `analyze_sentiment` from src/app.py lines 55-107.  The VADER analyzer is
abstracted as `engine` (the spec's pluggable polarity-engine capability). -/
def analyze_sentiment (engine : List Char → ℚ) (text : List Char) : SentimentResult :=
  if text.isEmpty then ⟨"neutral", 0, 0⟩
  else
    let compound := engine text
    if hasOpinion text then
      if 3 / 10 ≤ compound then
        ⟨"positive", round2 (min (|compound| * (12 / 10)) 1), round2 compound⟩
      else if compound ≤ -(3 / 10) then
        ⟨"negative", round2 (min (|compound| * (12 / 10)) 1), round2 compound⟩
      else
        ⟨"neutral", round2 (1 - |compound|), round2 compound⟩
    else
      if 1 / 2 ≤ compound then
        ⟨"positive", round2 (min |compound| 1), round2 compound⟩
      else if compound ≤ -(1 / 2) then
        ⟨"negative", round2 (min |compound| 1), round2 compound⟩
      else
        ⟨"neutral", round2 (1 - |compound|), round2 compound⟩

/-- Code-point-wise lexicographic order on char lists: the comparison numpy
uses when `Series.mode()` / `np.sort` sorts an object array of strings. -/
def lexLe : List Char → List Char → Bool
  | [], _ => true
  | _ :: _, [] => false
  | a :: as, b :: bs =>
    if a.toNat < b.toNat then true
    else if b.toNat < a.toNat then false
    else lexLe as bs

/-- Lexicographic order on label strings (numpy sort order). -/
def strLe (a b : String) : Bool :=
  lexLe a.data b.data

/-- Insert into a `strLe`-sorted list (ascending). -/
def insertStr (s : String) : List String → List String
  | [] => [s]
  | t :: ts => if strLe s t then s :: t :: ts else t :: insertStr s ts

/-- Ascending sort of label strings, as `np.sort` inside `Series.mode()`. -/
def sortStrs : List String → List String
  | [] => []
  | s :: ss => insertStr s (sortStrs ss)

/-- The distinct values of a list, in order of first occurrence. -/
def distincts : List String → List String
  | [] => []
  | x :: xs => x :: (distincts xs).filter fun y => y ≠ x

/-- The largest per-label occurrence count in `xs`. -/
def maxCount (xs : List String) : ℕ :=
  ((distincts xs).map fun v => xs.count v).foldr max 0

/-- `pandas.Series.mode()`: the distinct values of maximal count, in ascending
(lexicographic) order. -/
def pandasMode (xs : List String) : List String :=
  sortStrs ((distincts xs).filter fun v => xs.count v = maxCount xs)

/-- `df['sentiment_label'].mode()[0]` (src/app.py line 322): the first entry of
the sorted modes; `none` models the `IndexError` raised on an empty series. -/
def modeFirst (xs : List String) : Option String :=
  (pandasMode xs).head?

/-- `df['sentiment_label'].value_counts()` (src/app.py lines 123 and 326) as a
mapping: one entry per distinct value that occurs, with its count.  (pandas
orders entries by descending count; the claims only concern the mapping's
keys and values, so entries are listed in first-occurrence order here.) -/
def valueCounts (xs : List String) : List (String × ℕ) :=
  (distincts xs).map fun v => (v, xs.count v)

/-- `(sentiment_counts / total * 100).round(1)` (src/app.py line 125). -/
def pctTable (xs : List String) : List (String × ℚ) :=
  valueCounts xs |>.map fun p => (p.1, round1 ((p.2 : ℚ) / (xs.length : ℚ) * 100))

/-- The aggregate summary assembled by `main` (src/app.py lines 314-331) and
`plot_sentiment` (lines 123-125). -/
structure AggregateSummary where
  counts : List (String × ℕ)
  percentages : List (String × ℚ)
  averageConfidence : ℚ
  modeLabel : String
  deriving DecidableEq, Repr

/-- The aggregation step over the scored records (label, confidence): counts
and percentages via `value_counts`, `average_confidence` via `.mean()`
(line 319), `mode_label` via `.mode()[0]` (line 322).  `none` models the
exception on an empty collection. -/
def summarize (recs : List (String × ℚ)) : Option AggregateSummary :=
  match modeFirst (recs.map Prod.fst) with
  | none => none
  | some m =>
    some
      { counts := valueCounts (recs.map Prod.fst)
        percentages := pctTable (recs.map Prod.fst)
        averageConfidence := ((recs.map Prod.snd).sum) / (recs.length : ℚ)
        modeLabel := m }

/-- The analysis flow of `main` (src/app.py lines 258-283): bail out (with a
warning, modelled as `none`) when the input is empty or no rows survive
cleaning; otherwise score the surviving cleaned texts and summarize. -/
def runAnalysis (engine : List Char → ℚ) (texts : List (List Char)) : Option AggregateSummary :=
  if texts.isEmpty then none
  else
    let cleaned := (texts.map clean_text).filter fun t => !t.isEmpty
    if cleaned.isEmpty then none
    else
      summarize (cleaned.map fun t =>
        ((analyze_sentiment engine t).sentiment, (analyze_sentiment engine t).confidence))

theorem isPre_iff {l m : List Char} : isPre l m = true ↔ l <+: m := by
  induction l generalizing m with
  | nil => simp [isPre, List.nil_prefix]
  | cons a as ih =>
    cases m with
    | nil => simp [isPre]
    | cons b bs => simp [isPre, List.cons_prefix_cons, ih]

theorem hasSub_iff {w cs : List Char} : hasSub w cs = true ↔ w <:+: cs := by
  induction cs with
  | nil => simp [hasSub, isPre_iff, List.prefix_nil, List.infix_nil]
  | cons c cs ih => simp [hasSub, isPre_iff, ih, List.infix_cons_iff]

theorem length_dropWhile (p : Char → Bool) (l : List Char) :
    (l.dropWhile p).length ≤ l.length := by
  induction l with
  | nil => simp [List.dropWhile]
  | cons c cs ih =>
    rw [List.dropWhile_cons]
    split
    · exact le_trans ih (by simp)
    · simp

theorem dropWhile_head_false (p : Char → Bool) (l : List Char) :
    l.dropWhile p = [] ∨ ∃ d t, l.dropWhile p = d :: t ∧ p d = false := by
  induction l with
  | nil => left; rfl
  | cons c cs ih =>
    rw [List.dropWhile_cons]
    split
    · exact ih
    · rename_i hc
      right
      exact ⟨c, cs, rfl, by simpa using hc⟩

theorem headNonSpace_iff {l : List Char} :
    headNonSpace l = true ↔ ∃ d, l.head? = some d ∧ pySpace d = false := by
  cases l with
  | nil => simp [headNonSpace]
  | cons c cs => simp [headNonSpace]

theorem urlMatch_some_chars {l tl : List Char} (h : urlMatch l = some tl) :
    ∃ w n, ((w = ("http").data ∧ n = 4) ∨ (w = ("www").data ∧ n = 3)) ∧
      w.length = n ∧ w <+: l ∧ (∀ x ∈ w, pySpace x = false) ∧
      ∃ d, l[n]? = some d ∧ pySpace d = false := by
  rw [urlMatch] at h
  split at h
  · rename_i hc
    rw [Bool.and_eq_true] at hc
    obtain ⟨d, hd, hds⟩ := headNonSpace_iff.mp hc.2
    rw [List.head?_drop] at hd
    exact ⟨("http").data, 4, Or.inl ⟨rfl, rfl⟩, by decide, isPre_iff.mp hc.1,
      by decide, d, hd, hds⟩
  · split at h
    · rename_i hc
      rw [Bool.and_eq_true] at hc
      obtain ⟨d, hd, hds⟩ := headNonSpace_iff.mp hc.2
      rw [List.head?_drop] at hd
      exact ⟨("www").data, 3, Or.inr ⟨rfl, rfl⟩, by decide, isPre_iff.mp hc.1,
        by decide, d, hd, hds⟩
    · split at h
      · rename_i hc1 hc2 hc3
        exfalso
        rw [Bool.and_eq_true] at hc3
        have hp5 : ("https").data <+: l := isPre_iff.mp hc3.1
        have hp4 : ("http").data <+: l :=
          List.IsPrefix.trans (by decide : ("http").data <+: ("https").data) hp5
        have htake : ("https").data = l.take 5 := List.prefix_iff_eq_take.mp hp5
        have h4 : l[4]? = some 's' := by
          have : (l.take 5)[4]? = l[4]? := by
            rw [List.getElem?_take]
            exact if_pos (by omega)
          rw [← this, ← htake]
          decide
        apply hc1
        rw [Bool.and_eq_true]
        refine ⟨isPre_iff.mpr hp4, headNonSpace_iff.mpr ⟨'s', ?_, by decide⟩⟩
        rw [List.head?_drop]
        exact h4
      · exact absurd h (by simp)

theorem urlMatch_isSome_of_chars {l w : List Char} {n : ℕ}
    (hw : (w = ("http").data ∧ n = 4) ∨ (w = ("www").data ∧ n = 3))
    (hp : w <+: l) {d : Char} (hd : l[n]? = some d) (hds : pySpace d = false) :
    (urlMatch l).isSome = true := by
  have hns : headNonSpace (l.drop n) = true := by
    rw [headNonSpace_iff]
    exact ⟨d, by rw [List.head?_drop]; exact hd, hds⟩
  rw [urlMatch]
  rcases hw with ⟨rfl, rfl⟩ | ⟨rfl, rfl⟩
  · rw [if_pos (by rw [Bool.and_eq_true]; exact ⟨isPre_iff.mpr hp, hns⟩)]
    rfl
  · by_cases h1 : (isPre (("http").data) l && headNonSpace (l.drop 4)) = true
    · rw [if_pos h1]; rfl
    · rw [if_neg h1, if_pos (by rw [Bool.and_eq_true]; exact ⟨isPre_iff.mpr hp, hns⟩)]
      rfl

theorem urlMatch_space_head {d : Char} {t : List Char} (hd : pySpace d = true) :
    urlMatch (d :: t) = none := by
  cases h : urlMatch (d :: t) with
  | none => rfl
  | some tl =>
    exfalso
    obtain ⟨w, n, hw, _, hpre, _, _⟩ := urlMatch_some_chars h
    rcases hw with ⟨rfl, _⟩ | ⟨rfl, _⟩
    · rw [show ("http").data = 'h' :: ('t' :: 't' :: 'p' :: []) from rfl] at hpre
      obtain ⟨he, _⟩ := List.cons_prefix_cons.mp hpre
      rw [← he] at hd
      exact absurd hd (by decide)
    · rw [show ("www").data = 'w' :: ('w' :: 'w' :: []) from rfl] at hpre
      obtain ⟨he, _⟩ := List.cons_prefix_cons.mp hpre
      rw [← he] at hd
      exact absurd hd (by decide)

theorem urlMatch_some_spaceOrEnd {l tl : List Char} (h : urlMatch l = some tl) :
    tl = [] ∨ ∃ d t, tl = d :: t ∧ pySpace d = true := by
  rw [urlMatch] at h
  have key : ∀ (m : List Char), (m.dropWhile fun c => !pySpace c) = tl →
      tl = [] ∨ ∃ d t, tl = d :: t ∧ pySpace d = true := by
    intro m hm
    rcases dropWhile_head_false (fun c => !pySpace c) m with h0 | ⟨d, t, he, hf⟩
    · left; rw [← hm]; exact h0
    · right
      refine ⟨d, t, by rw [← hm]; exact he, ?_⟩
      simpa using hf
  split at h
  · exact key _ (Option.some_injective _ h)
  · split at h
    · exact key _ (Option.some_injective _ h)
    · split at h
      · exact key _ (Option.some_injective _ h)
      · exact absurd h (by simp)

theorem urlMatch_some_length {l tl : List Char} (h : urlMatch l = some tl) :
    tl.length < l.length := by
  obtain ⟨w, n, hw, hwlen, hpre, _, d, hd, _⟩ := urlMatch_some_chars h
  have hn : n < l.length := (List.getElem?_eq_some.mp hd).1
  have htl : ∀ (m : List Char), urlMatch l = some ((l.drop m.length).dropWhile
      fun c => !pySpace c) → True := fun _ _ => trivial
  clear htl
  rw [urlMatch] at h
  have key : ∀ (k : ℕ), 0 < k → ((l.drop k).dropWhile fun c => !pySpace c) = tl →
      tl.length < l.length := by
    intro k hk hm
    have h1 : tl.length ≤ (l.drop k).length := by
      rw [← hm]; exact length_dropWhile _ _
    rw [List.length_drop] at h1
    omega
  split at h
  · exact key 4 (by omega) (Option.some_injective _ h)
  · split at h
    · exact key 3 (by omega) (Option.some_injective _ h)
    · split at h
      · exact key 5 (by omega) (Option.some_injective _ h)
      · exact absurd h (by simp)

theorem stripURLsAux_nil (f : ℕ) : stripURLsAux f [] = [] := by
  cases f with
  | zero => rfl
  | succ g => rfl

theorem stripURLsAux_irrel : ∀ (f g : ℕ) (cs : List Char), cs.length ≤ f → cs.length ≤ g →
    stripURLsAux f cs = stripURLsAux g cs := by
  intro f
  induction f with
  | zero =>
    intro g cs hf _
    have : cs = [] := List.length_eq_zero.mp (by omega)
    subst this
    rw [stripURLsAux_nil, stripURLsAux_nil]
  | succ f ih =>
    intro g cs hf hg
    cases cs with
    | nil => rw [stripURLsAux_nil, stripURLsAux_nil]
    | cons c rest =>
      cases g with
      | zero => simp at hg
      | succ g' =>
        rw [stripURLsAux, stripURLsAux]
        cases h : urlMatch (c :: rest) with
        | some tl =>
          have hlt := urlMatch_some_length h
          simp only [List.length_cons] at hf hg hlt
          exact ih g' tl (by omega) (by omega)
        | none =>
          simp only [List.length_cons] at hf hg
          rw [ih g' rest (by omega) (by omega)]

theorem stripURLs_cons_some {c : Char} {rest tl : List Char}
    (h : urlMatch (c :: rest) = some tl) :
    stripURLs (c :: rest) = stripURLs tl := by
  rw [stripURLs, stripURLs]
  have hlt := urlMatch_some_length h
  rw [show (c :: rest).length = rest.length + 1 from by simp, stripURLsAux, h]
  exact stripURLsAux_irrel rest.length tl.length tl (by simp at hlt; omega) le_rfl

theorem stripURLs_cons_none {c : Char} {rest : List Char}
    (h : urlMatch (c :: rest) = none) :
    stripURLs (c :: rest) = c :: stripURLs rest := by
  rw [stripURLs, stripURLs]
  rw [show (c :: rest).length = rest.length + 1 from by simp, stripURLsAux, h]

theorem stripURLs_inv : ∀ (n : ℕ) (cs : List Char), cs.length ≤ n →
    ∃ k, (stripURLs cs).take k = cs.take k ∧
      ((stripURLs cs).drop k = [] ∨
        ∃ d t, (stripURLs cs).drop k = d :: t ∧ pySpace d = true) := by
  intro n
  induction n with
  | zero =>
    intro cs h
    have h0 : cs = [] := List.length_eq_zero.mp (by omega)
    subst h0
    exact ⟨0, rfl, Or.inl rfl⟩
  | succ n ih =>
    intro cs h
    cases cs with
    | nil => exact ⟨0, rfl, Or.inl rfl⟩
    | cons c rest =>
      cases hm : urlMatch (c :: rest) with
      | none =>
        rw [stripURLs_cons_none hm]
        obtain ⟨k, hk1, hk2⟩ := ih rest (by simp only [List.length_cons] at h; omega)
        refine ⟨k + 1, ?_, ?_⟩
        · rw [List.take_succ_cons, List.take_succ_cons, hk1]
        · rw [List.drop_succ_cons]
          exact hk2
      | some tl =>
        rw [stripURLs_cons_some hm]
        refine ⟨0, rfl, ?_⟩
        simp only [List.drop_zero]
        rcases urlMatch_some_spaceOrEnd hm with rfl | ⟨d, t, rfl, hd⟩
        · left; rfl
        · rw [stripURLs_cons_none (urlMatch_space_head hd)]
          right
          exact ⟨d, stripURLs t, rfl, hd⟩

theorem hasURL_stripURLs : ∀ (n : ℕ) (cs : List Char), cs.length ≤ n →
    hasURL (stripURLs cs) = false := by
  intro n
  induction n with
  | zero =>
    intro cs h
    have h0 : cs = [] := List.length_eq_zero.mp (by omega)
    subst h0
    rfl
  | succ n ih =>
    intro cs h
    cases cs with
    | nil => rfl
    | cons c rest =>
      cases hm : urlMatch (c :: rest) with
      | some tl =>
        rw [stripURLs_cons_some hm]
        have hlt := urlMatch_some_length hm
        simp only [List.length_cons] at h hlt
        exact ih tl (by omega)
      | none =>
        rw [stripURLs_cons_none hm]
        have hS : hasURL (stripURLs rest) = false :=
          ih rest (by simp only [List.length_cons] at h; omega)
        rw [hasURL, hS, Bool.or_false]
        cases hm2 : urlMatch (c :: stripURLs rest) with
        | none => rfl
        | some tl2 =>
          exfalso
          obtain ⟨w, j, hw, hwlen, hpre, hwns, d, hd, hds⟩ := urlMatch_some_chars hm2
          obtain ⟨k, hk1, hk2⟩ := stripURLs_inv rest.length rest le_rfl
          have hj1 : 1 ≤ j := by rcases hw with ⟨_, rfl⟩ | ⟨_, rfl⟩ <;> omega
          have hwtake : w = (c :: stripURLs rest).take j := by
            rw [← hwlen]
            exact List.prefix_iff_eq_take.mp hpre
          by_cases hjk : j ≤ k
          · obtain ⟨j', rfl⟩ : ∃ j', j = j' + 1 := ⟨j - 1, by omega⟩
            have htake : (c :: stripURLs rest).take (j' + 1) = (c :: rest).take (j' + 1) := by
              rw [List.take_succ_cons, List.take_succ_cons]
              have e1 : (stripURLs rest).take j' = ((stripURLs rest).take k).take j' := by
                rw [List.take_take]
                congr 1
                omega
              have e2 : rest.take j' = (rest.take k).take j' := by
                rw [List.take_take]
                congr 1
                omega
              rw [e1, e2, hk1]
            have hpre' : w <+: c :: rest := by
              rw [List.prefix_iff_eq_take, hwlen, ← htake, ← hwtake]
            have hd' : (c :: rest)[j' + 1]? = some d := by
              rw [List.getElem?_cons_succ] at hd ⊢
              have e1 : (stripURLs rest)[j']? = ((stripURLs rest).take k)[j']? := by
                rw [List.getElem?_take, if_pos (by omega)]
              have e2 : rest[j']? = (rest.take k)[j']? := by
                rw [List.getElem?_take, if_pos (by omega)]
              rw [e2, ← hk1, ← e1]
              exact hd
            have hsome := urlMatch_isSome_of_chars hw hpre' hd' hds
            rw [hm] at hsome
            simp at hsome
          · have hlen : j < (c :: stripURLs rest).length := (List.getElem?_eq_some.mp hd).1
            have hSlen : k < (stripURLs rest).length := by
              simp only [List.length_cons] at hlen
              omega
            rcases hk2 with h0 | ⟨e, t, he, hes⟩
            · have := List.drop_eq_nil_iff.mp h0
              omega
            · have hSk : (stripURLs rest)[k]? = some e := by
                rw [← List.head?_drop, he]
                rfl
              have hck : (c :: stripURLs rest)[k + 1]? = some e := by
                rw [List.getElem?_cons_succ]
                exact hSk
              by_cases hkj : k + 1 = j
              · rw [hkj, hd] at hck
                have hde : d = e := by
                  injection hck
                rw [hde] at hds
                rw [hds] at hes
                exact absurd hes (by decide)
              · have hlt : k + 1 < j := by omega
                have hwk : w[k + 1]? = some e := by
                  rw [hwtake, List.getElem?_take, if_pos hlt]
                  exact hck
                have hmem : e ∈ w := List.getElem?_mem hwk
                have hf := hwns e hmem
                rw [hf] at hes
                exact absurd hes (by decide)

theorem hasURL_stripURLs_eq_false (cs : List Char) : hasURL (stripURLs cs) = false :=
  hasURL_stripURLs cs.length cs le_rfl

theorem stripURLs_of_not_hasURL : ∀ {cs : List Char}, hasURL cs = false → stripURLs cs = cs := by
  intro cs
  induction cs with
  | nil => intro _; rfl
  | cons c rest ih =>
    intro h
    rw [hasURL] at h
    have h' : (urlMatch (c :: rest)).isSome = false ∧ hasURL rest = false := by
      simpa using h
    cases hm : urlMatch (c :: rest) with
    | some tl =>
      rw [hm] at h'
      simp at h'
    | none =>
      rw [stripURLs_cons_none hm, ih h'.2]

theorem hasURL_append_left {xs : List Char} (ys : List Char) (h : hasURL xs = true) :
    hasURL (xs ++ ys) = true := by
  induction xs with
  | nil => simp [hasURL] at h
  | cons c rest ih =>
    rw [hasURL] at h
    rw [List.cons_append, hasURL]
    have h' : (urlMatch (c :: rest)).isSome = true ∨ hasURL rest = true := by simpa using h
    rcases h' with h1 | h2
    · cases hm : urlMatch (c :: rest) with
      | none =>
        rw [hm] at h1
        simp at h1
      | some tl =>
        obtain ⟨w, j, hw, hwlen, hpre, hwns, d, hd, hds⟩ := urlMatch_some_chars hm
        have hj : j < (c :: rest).length := (List.getElem?_eq_some.mp hd).1
        have hpre' : w <+: (c :: rest) ++ ys := hpre.trans (List.prefix_append _ _)
        have hd' : ((c :: rest) ++ ys)[j]? = some d := by
          rw [List.getElem?_append, if_pos hj]
          exact hd
        have hsome := urlMatch_isSome_of_chars hw (by simpa using hpre') (by simpa using hd') hds
        rw [Bool.or_eq_true]
        left
        simpa using hsome
    · rw [Bool.or_eq_true]
      right
      exact ih h2

theorem hasURL_append_right (xs : List Char) {ys : List Char} (h : hasURL ys = true) :
    hasURL (xs ++ ys) = true := by
  induction xs with
  | nil => simpa using h
  | cons c rest ih =>
    rw [List.cons_append, hasURL, Bool.or_eq_true]
    right
    exact ih

theorem hasURL_of_infix {T cs : List Char} (hinf : T <:+: cs) (h : hasURL T = true) :
    hasURL cs = true := by
  obtain ⟨s, t, rfl⟩ := hinf
  rw [List.append_assoc]
  exact hasURL_append_right s (hasURL_append_left t h)

theorem urlMatch_append_space (L R : List Char) (hns : ∀ x ∈ L, pySpace x = false)
    (h : (urlMatch (L ++ ' ' :: R)).isSome = true) : (urlMatch L).isSome = true := by
  cases hm : urlMatch (L ++ ' ' :: R) with
  | none =>
    rw [hm] at h
    simp at h
  | some tl =>
    obtain ⟨w, j, hw, hwlen, hpre, hwns, d, hd, hds⟩ := urlMatch_some_chars hm
    have hwtake : w = (L ++ ' ' :: R).take j := by
      rw [← hwlen]
      exact List.prefix_iff_eq_take.mp hpre
    have hLb : (L ++ ' ' :: R)[L.length]? = some ' ' := by
      rw [List.getElem?_append, if_neg (by omega)]
      simp
    have hjL : j < L.length := by
      rcases Nat.lt_trichotomy j L.length with hx | hx | hx
      · exact hx
      · exfalso
        rw [← hx] at hLb
        rw [hd] at hLb
        have hde : d = ' ' := by injection hLb
        rw [hde] at hds
        exact absurd hds (by decide)
      · exfalso
        have hwL : w[L.length]? = some ' ' := by
          rw [hwtake, List.getElem?_take, if_pos hx]
          exact hLb
        have hmem : ' ' ∈ w := List.getElem?_mem hwL
        have hf := hwns ' ' hmem
        exact absurd hf (by decide)
    have hpreL : w <+: L := by
      rw [List.prefix_iff_eq_take, hwlen, hwtake, List.take_append_of_le_length (by omega)]
    have hdL : L[j]? = some d := by
      rw [List.getElem?_append, if_pos hjL] at hd
      exact hd
    exact urlMatch_isSome_of_chars hw hpreL hdL hds

theorem hasURL_token_append (T R : List Char) (hns : ∀ x ∈ T, pySpace x = false)
    (h : hasURL (T ++ ' ' :: R) = true) : hasURL T = true ∨ hasURL R = true := by
  induction T with
  | nil =>
    right
    rw [List.nil_append, hasURL, urlMatch_space_head (by decide)] at h
    simpa using h
  | cons c T' ih =>
    rw [List.cons_append, hasURL] at h
    have h' : (urlMatch (c :: (T' ++ ' ' :: R))).isSome = true ∨
        hasURL (T' ++ ' ' :: R) = true := by simpa using h
    rcases h' with h1 | h2
    · left
      have hcs := urlMatch_append_space (c :: T') R hns (by simpa using h1)
      rw [hasURL, Bool.or_eq_true]
      left
      exact hcs
    · rcases ih (fun x hx => hns x (List.mem_cons_of_mem c hx)) h2 with hT | hR
      · left
        rw [hasURL, Bool.or_eq_true]
        right
        exact hT
      · right
        exact hR

theorem hasURL_joinSpace : ∀ (ts : List (List Char)),
    (∀ T ∈ ts, ∀ x ∈ T, pySpace x = false) → hasURL (joinSpace ts) = true →
    ∃ T ∈ ts, hasURL T = true := by
  intro ts
  induction ts with
  | nil =>
    intro _ h
    rw [joinSpace] at h
    simp [hasURL] at h
  | cons T ts' ih =>
    intro hns h
    cases ts' with
    | nil =>
      rw [joinSpace] at h
      exact ⟨T, List.mem_cons_self T [], h⟩
    | cons T2 ts'' =>
      have hj : joinSpace (T :: T2 :: ts'') = T ++ ' ' :: joinSpace (T2 :: ts'') := rfl
      rw [hj] at h
      rcases hasURL_token_append T (joinSpace (T2 :: ts'')) (hns T (by simp)) h with hT | hJ
      · exact ⟨T, by simp, hT⟩
      · obtain ⟨U, hUm, hU⟩ := ih (fun U hU x hx => hns U (List.mem_cons_of_mem T hU) x hx) hJ
        exact ⟨U, List.mem_cons_of_mem T hUm, hU⟩

theorem pySplitAux_wf : ∀ (cs acc : List Char), (∀ x ∈ acc, pySpace x = false) →
    ∀ T ∈ pySplitAux cs acc, T ≠ [] ∧ ∀ x ∈ T, pySpace x = false := by
  intro cs
  induction cs with
  | nil =>
    intro acc hacc T hT
    rw [pySplitAux] at hT
    split at hT
    · simp at hT
    · rename_i hne
      have hTe : T = acc.reverse := by simpa using hT
      subst hTe
      refine ⟨?_, fun x hx => hacc x (List.mem_reverse.mp hx)⟩
      rw [Ne, List.reverse_eq_nil_iff]
      intro h0
      subst h0
      exact hne rfl
  | cons c cs ih =>
    intro acc hacc T hT
    rw [pySplitAux] at hT
    split at hT
    · split at hT
      · exact ih [] (by simp) T hT
      · rename_i hne
        rcases List.mem_cons.mp hT with rfl | hT'
        · refine ⟨?_, fun x hx => hacc x (List.mem_reverse.mp hx)⟩
          rw [Ne, List.reverse_eq_nil_iff]
          intro h0
          subst h0
          exact hne rfl
        · exact ih [] (by simp) T hT'
    · rename_i hcs
      refine ih (c :: acc) ?_ T hT
      intro x hx
      rcases List.mem_cons.mp hx with rfl | hx'
      · simpa using hcs
      · exact hacc x hx'

theorem pySplitAux_infix : ∀ (cs acc : List Char) (T : List Char),
    T ∈ pySplitAux cs acc → T <:+: acc.reverse ++ cs := by
  intro cs
  induction cs with
  | nil =>
    intro acc T hT
    rw [pySplitAux] at hT
    split at hT
    · simp at hT
    · have hTe : T = acc.reverse := by simpa using hT
      subst hTe
      exact ⟨[], [], by simp⟩
  | cons c cs ih =>
    intro acc T hT
    rw [pySplitAux] at hT
    split at hT
    · split at hT
      · obtain ⟨s, t, he⟩ := ih [] T hT
        simp only [List.reverse_nil, List.nil_append] at he
        exact ⟨acc.reverse ++ c :: s, t, by rw [← he]; simp⟩
      · rcases List.mem_cons.mp hT with rfl | hT'
        · exact ⟨[], c :: cs, by simp⟩
        · obtain ⟨s, t, he⟩ := ih [] T hT'
          simp only [List.reverse_nil, List.nil_append] at he
          exact ⟨acc.reverse ++ c :: s, t, by rw [← he]; simp⟩
    · have h1 := ih (c :: acc) T hT
      rw [List.reverse_cons, List.append_assoc] at h1
      simpa using h1

theorem pySplitAux_token : ∀ (T cs acc : List Char), (∀ x ∈ T, pySpace x = false) →
    pySplitAux (T ++ cs) acc = pySplitAux cs (T.reverse ++ acc) := by
  intro T
  induction T with
  | nil =>
    intro cs acc _
    simp
  | cons c T' ih =>
    intro cs acc hns
    have hc : pySpace c = false := hns c (List.mem_cons_self c T')
    rw [List.cons_append, pySplitAux, if_neg (by simp [hc])]
    rw [ih cs (c :: acc) (fun x hx => hns x (List.mem_cons_of_mem c hx))]
    congr 1
    rw [List.reverse_cons, List.append_assoc]
    simp

theorem pySplit_joinSpace : ∀ (ts : List (List Char)),
    (∀ T ∈ ts, T ≠ [] ∧ ∀ x ∈ T, pySpace x = false) →
    pySplit (joinSpace ts) = ts := by
  intro ts
  induction ts with
  | nil => intro _; rfl
  | cons T ts' ih =>
    intro h
    have hT := h T (by simp)
    cases ts' with
    | nil =>
      rw [joinSpace, pySplit]
      have h2 : pySplitAux (T ++ []) [] = pySplitAux [] (T.reverse ++ []) :=
        pySplitAux_token T [] [] hT.2
      simp only [List.append_nil] at h2
      rw [h2, pySplitAux, if_neg (by simpa using hT.1)]
      simp
    | cons T2 ts'' =>
      have hj : joinSpace (T :: T2 :: ts'') = T ++ ' ' :: joinSpace (T2 :: ts'') := rfl
      rw [hj, pySplit, pySplitAux_token T (' ' :: joinSpace (T2 :: ts'')) [] hT.2]
      rw [pySplitAux, if_pos (by decide), if_neg (by simpa using hT.1)]
      simp only [List.append_nil, List.reverse_reverse]
      rw [show pySplitAux (joinSpace (T2 :: ts'')) [] = pySplit (joinSpace (T2 :: ts'')) from rfl]
      rw [ih (fun U hU => h U (List.mem_cons_of_mem T hU))]

theorem joinSpace_ne_nil : ∀ (ts : List (List Char)), ts ≠ [] → (∀ T ∈ ts, T ≠ []) →
    joinSpace ts ≠ [] := by
  intro ts
  cases ts with
  | nil =>
    intro h _
    exact absurd rfl h
  | cons T ts' =>
    intro _ hT
    cases ts' with
    | nil =>
      rw [joinSpace]
      exact hT T (by simp)
    | cons T2 ts'' =>
      have hj : joinSpace (T :: T2 :: ts'') = T ++ ' ' :: joinSpace (T2 :: ts'') := rfl
      rw [hj]
      intro h0
      rcases List.append_eq_nil.mp h0 with ⟨_, h2⟩
      simp at h2

theorem clean_text_present {t : List Char} (h : clean_text t ≠ []) :
    rejectedStarts.any (fun p => isPre p (pyStrip t)) = false ∧
    clean_text t = joinSpace (pySplit (stripURLs t)) ∧
    3 ≤ (pySplit (joinSpace (pySplit (stripURLs t)))).length := by
  simp only [clean_text] at h ⊢
  split at h
  · exact absurd rfl h
  · rename_i h1
    split at h
    · exact absurd rfl h
    · rename_i h2
      refine ⟨by simpa using h1, ?_, by omega⟩
      rw [if_neg h1, if_neg h2]

theorem hasURL_clean_text {t : List Char} (h : clean_text t ≠ []) :
    hasURL (clean_text t) = false := by
  obtain ⟨_, he, _⟩ := clean_text_present h
  rw [he]
  cases hx : hasURL (joinSpace (pySplit (stripURLs t))) with
  | false => rfl
  | true =>
    exfalso
    obtain ⟨T, hTm, hTu⟩ := hasURL_joinSpace (pySplit (stripURLs t))
      (fun T hT x hx' => (pySplitAux_wf (stripURLs t) [] (by simp) T hT).2 x hx') hx
    have hinf : T <:+: stripURLs t := by
      simpa using pySplitAux_infix (stripURLs t) [] T hTm
    have h2 := hasURL_of_infix hinf hTu
    rw [hasURL_stripURLs_eq_false t] at h2
    exact absurd h2 (by decide)

theorem lexLe_refl : ∀ (a : List Char), lexLe a a = true := by
  intro a
  induction a with
  | nil => rfl
  | cons c cs ih =>
    rw [lexLe, if_neg (lt_irrefl _), if_neg (lt_irrefl _)]
    exact ih

theorem lexLe_total : ∀ (a b : List Char), lexLe a b = true ∨ lexLe b a = true := by
  intro a
  induction a with
  | nil =>
    intro b
    left
    rfl
  | cons c cs ih =>
    intro b
    cases b with
    | nil =>
      right
      rfl
    | cons d ds =>
      rw [lexLe, lexLe]
      rcases Nat.lt_trichotomy c.toNat d.toNat with h | h | h
      · left
        rw [if_pos h]
      · rw [if_neg (by omega), if_neg (by omega), if_neg (by omega), if_neg (by omega)]
        exact ih ds
      · right
        rw [if_pos h]

theorem lexLe_trans : ∀ (a b c : List Char), lexLe a b = true → lexLe b c = true →
    lexLe a c = true := by
  intro a
  induction a with
  | nil =>
    intro b c _ _
    rfl
  | cons x xs ih =>
    intro b c hab hbc
    cases b with
    | nil =>
      rw [lexLe] at hab
      exact absurd hab (by decide)
    | cons y ys =>
      cases c with
      | nil =>
        rw [lexLe] at hbc
        exact absurd hbc (by decide)
      | cons z zs =>
        rw [lexLe] at hab hbc ⊢
        rcases Nat.lt_trichotomy x.toNat y.toNat with hxy | hxy | hxy <;>
          rcases Nat.lt_trichotomy y.toNat z.toNat with hyz | hyz | hyz
        · rw [if_pos (by omega)]
        · rw [if_pos (by omega)]
        · rw [if_neg (by omega), if_pos (by omega)] at hbc
          exact absurd hbc (by decide)
        · rw [if_pos (by omega)]
        · rw [if_neg (by omega), if_neg (by omega)] at hab hbc ⊢
          exact ih ys zs hab hbc
        · rw [if_neg (by omega), if_pos (by omega)] at hbc
          exact absurd hbc (by decide)
        · rw [if_neg (by omega), if_pos (by omega)] at hab
          exact absurd hab (by decide)
        · rw [if_neg (by omega), if_pos (by omega)] at hab
          exact absurd hab (by decide)
        · rw [if_neg (by omega), if_pos (by omega)] at hab
          exact absurd hab (by decide)

theorem strLe_refl (a : String) : strLe a a = true :=
  lexLe_refl a.data

theorem strLe_total (a b : String) : strLe a b = true ∨ strLe b a = true :=
  lexLe_total a.data b.data

theorem strLe_trans (a b c : String) (h1 : strLe a b = true) (h2 : strLe b c = true) :
    strLe a c = true :=
  lexLe_trans a.data b.data c.data h1 h2

theorem mem_insertStr {v s : String} : ∀ {l : List String}, v ∈ insertStr s l ↔ v = s ∨ v ∈ l := by
  intro l
  induction l with
  | nil => simp [insertStr]
  | cons t ts ih =>
    rw [insertStr]
    split
    · simp
    · rw [List.mem_cons, List.mem_cons, ih]
      tauto

theorem mem_sortStrs {v : String} : ∀ {l : List String}, v ∈ sortStrs l ↔ v ∈ l := by
  intro l
  induction l with
  | nil => simp [sortStrs]
  | cons s ss ih =>
    rw [sortStrs, mem_insertStr, ih, List.mem_cons]

theorem insertStr_pairwise (s : String) : ∀ {l : List String},
    l.Pairwise (fun a b => strLe a b = true) →
    (insertStr s l).Pairwise (fun a b => strLe a b = true) := by
  intro l
  induction l with
  | nil =>
    intro _
    simp [insertStr]
  | cons t ts ih =>
    intro hp
    obtain ⟨ht, hts⟩ := List.pairwise_cons.mp hp
    rw [insertStr]
    split
    · rename_i hst
      rw [List.pairwise_cons]
      refine ⟨?_, hp⟩
      intro v hv
      rcases List.mem_cons.mp hv with rfl | hv'
      · exact hst
      · exact strLe_trans s t v hst (ht v hv')
    · rename_i hst
      rw [List.pairwise_cons]
      refine ⟨?_, ih hts⟩
      intro v hv
      rcases mem_insertStr.mp hv with hveq | hv'
      · rw [hveq]
        rcases strLe_total s t with h | h
        · exact absurd h hst
        · exact h
      · exact ht v hv'

theorem sortStrs_pairwise : ∀ (l : List String),
    (sortStrs l).Pairwise (fun a b => strLe a b = true) := by
  intro l
  induction l with
  | nil => simp [sortStrs]
  | cons s ss ih => exact insertStr_pairwise s ih

theorem mem_distincts {v : String} : ∀ {l : List String}, v ∈ distincts l ↔ v ∈ l := by
  intro l
  induction l with
  | nil => simp [distincts]
  | cons x xs ih =>
    rw [distincts]
    constructor
    · intro h
      rcases List.mem_cons.mp h with rfl | h'
      · exact List.mem_cons_self _ _
      · exact List.mem_cons_of_mem x (ih.mp (List.mem_of_mem_filter h'))
    · intro h
      rcases List.mem_cons.mp h with rfl | h'
      · exact List.mem_cons_self _ _
      · by_cases hv : v = x
        · subst hv
          exact List.mem_cons_self _ _
        · exact List.mem_cons_of_mem x (List.mem_filter.mpr ⟨ih.mpr h', by simp [hv]⟩)

theorem foldr_max_le (a : ℕ) : ∀ (l : List ℕ), a ∈ l → a ≤ l.foldr max 0 := by
  intro l
  induction l with
  | nil =>
    intro h
    simp at h
  | cons x xs ih =>
    intro h
    rw [List.foldr_cons]
    rcases List.mem_cons.mp h with rfl | h'
    · exact le_max_left _ _
    · exact le_trans (ih h') (le_max_right _ _)

theorem foldr_max_mem : ∀ (l : List ℕ), l ≠ [] → l.foldr max 0 ∈ l := by
  intro l
  induction l with
  | nil =>
    intro h
    exact absurd rfl h
  | cons x xs ih =>
    intro _
    rw [List.foldr_cons]
    cases xs with
    | nil => simp
    | cons y ys =>
      rcases max_cases x ((y :: ys).foldr max 0) with ⟨he, _⟩ | ⟨he, _⟩
      · rw [he]
        exact List.mem_cons_self _ _
      · rw [he]
        exact List.mem_cons_of_mem x (ih (by simp))

theorem maxCount_attained (xs : List String) (h : xs ≠ []) :
    ∃ v ∈ distincts xs, xs.count v = maxCount xs := by
  have hd : distincts xs ≠ [] := by
    cases xs with
    | nil => exact absurd rfl h
    | cons x l =>
      rw [distincts]
      simp
  have hmem : maxCount xs ∈ (distincts xs).map fun v => xs.count v :=
    foldr_max_mem ((distincts xs).map fun v => xs.count v) (by simpa using hd)
  obtain ⟨v, hvm, hvc⟩ := List.mem_map.mp hmem
  exact ⟨v, hvm, hvc⟩

theorem count_le_maxCount (xs : List String) (v : String) (h : v ∈ xs) :
    xs.count v ≤ maxCount xs :=
  foldr_max_le (xs.count v) ((distincts xs).map fun u => xs.count u)
    (List.mem_map_of_mem (fun u => xs.count u) (mem_distincts.mpr h))

theorem modeFirst_spec (xs : List String) (h : xs ≠ []) :
    ∃ m, modeFirst xs = some m ∧ m ∈ xs ∧ xs.count m = maxCount xs ∧
      ∀ v ∈ xs, xs.count v = maxCount xs → strLe m v = true := by
  obtain ⟨v0, hv0m, hv0c⟩ := maxCount_attained xs h
  have hcand : v0 ∈ (distincts xs).filter fun v => xs.count v = maxCount xs :=
    List.mem_filter.mpr ⟨hv0m, by simp [hv0c]⟩
  have hsortmem : v0 ∈ sortStrs ((distincts xs).filter fun v => xs.count v = maxCount xs) :=
    mem_sortStrs.mpr hcand
  cases hS : sortStrs ((distincts xs).filter fun v => xs.count v = maxCount xs) with
  | nil =>
    rw [hS] at hsortmem
    simp at hsortmem
  | cons m rest =>
    have hmS : m ∈ sortStrs ((distincts xs).filter fun v => xs.count v = maxCount xs) := by
      rw [hS]
      exact List.mem_cons_self _ _
    have hmf := mem_sortStrs.mp hmS
    refine ⟨m, ?_, ?_, ?_, ?_⟩
    · rw [modeFirst, pandasMode, hS]
      rfl
    · exact mem_distincts.mp (List.mem_of_mem_filter hmf)
    · have := (List.mem_filter.mp hmf).2
      simpa using this
    · intro v hv hvc
      have hvcand : v ∈ sortStrs ((distincts xs).filter fun u => xs.count u = maxCount xs) :=
        mem_sortStrs.mpr (List.mem_filter.mpr ⟨mem_distincts.mpr hv, by simp [hvc]⟩)
      rw [hS] at hvcand
      rcases List.mem_cons.mp hvcand with rfl | hv'
      · exact strLe_refl v
      · have hp := sortStrs_pairwise ((distincts xs).filter fun u => xs.count u = maxCount xs)
        rw [hS] at hp
        exact (List.pairwise_cons.mp hp).1 v hv'

theorem rhe_le (q : ℚ) (n : ℤ) (h : q ≤ (n : ℚ)) : rhe q ≤ n := by
  have hf : Int.floor q ≤ n := by
    have h2 := Int.floor_le_floor h
    rwa [Int.floor_intCast] at h2
  simp only [rhe]
  split
  · exact hf
  · rename_i h1
    have h2 : (1 : ℚ) / 2 ≤ q - Int.floor q := le_of_not_lt h1
    have h3 : (Int.floor q : ℚ) < (n : ℚ) := by linarith
    have hfn : Int.floor q < n := by exact_mod_cast h3
    split
    · omega
    · split <;> omega

theorem le_rhe (q : ℚ) (n : ℤ) (h : (n : ℚ) ≤ q) : n ≤ rhe q := by
  have hf : n ≤ Int.floor q := Int.le_floor.mpr h
  simp only [rhe]
  split
  · exact hf
  · split
    · omega
    · split <;> omega

theorem round2_bounds_of (q : ℚ) (a b : ℤ) (h1 : (a : ℚ) / 100 ≤ q) (h2 : q ≤ (b : ℚ) / 100) :
    (a : ℚ) / 100 ≤ round2 q ∧ round2 q ≤ (b : ℚ) / 100 := by
  have ha : (a : ℚ) ≤ q * 100 := by linarith
  have hb : q * 100 ≤ (b : ℚ) := by linarith
  have l1 := le_rhe (q * 100) a ha
  have l2 := rhe_le (q * 100) b hb
  have l1' : (a : ℚ) ≤ (rhe (q * 100) : ℚ) := by exact_mod_cast l1
  have l2' : ((rhe (q * 100)) : ℚ) ≤ (b : ℚ) := by exact_mod_cast l2
  rw [round2]
  constructor <;> linarith

theorem round2_mem_01 (q : ℚ) (h1 : 0 ≤ q) (h2 : q ≤ 1) :
    0 ≤ round2 q ∧ round2 q ≤ 1 := by
  obtain ⟨l, r⟩ := round2_bounds_of q 0 100 (by push_cast; linarith) (by push_cast; linarith)
  push_cast at l r
  constructor <;> linarith

theorem round2_mem_neg11 (q : ℚ) (h1 : -1 ≤ q) (h2 : q ≤ 1) :
    -1 ≤ round2 q ∧ round2 q ≤ 1 := by
  obtain ⟨l, r⟩ := round2_bounds_of q (-100) 100 (by push_cast; linarith) (by push_cast; linarith)
  push_cast at l r
  constructor <;> linarith

theorem round2_ge_threshold (q : ℚ) (h : 3 / 10 ≤ q) : 3 / 10 ≤ round2 q := by
  have l := le_rhe (q * 100) 30 (by push_cast; linarith)
  have l' : (30 : ℚ) ≤ (rhe (q * 100) : ℚ) := by exact_mod_cast l
  rw [round2]
  linarith

theorem round2_le_neg_threshold (q : ℚ) (h : q ≤ -(3 / 10)) : round2 q ≤ -(3 / 10) := by
  have l := rhe_le (q * 100) (-30) (by push_cast; linarith)
  have l' : ((rhe (q * 100)) : ℚ) ≤ (-30 : ℚ) := by exact_mod_cast l
  rw [round2]
  linarith

theorem isEmpty_false_of_ne {t : List Char} (ht : t ≠ []) : t.isEmpty = false := by
  cases t with
  | nil => exact absurd rfl ht
  | cons c cs => rfl

theorem analyze_sentiment_present (engine : List Char → ℚ) (t : List Char) (ht : t ≠ []) :
    analyze_sentiment engine t =
      if hasOpinion t then
        if 3 / 10 ≤ engine t then
          ⟨"positive", round2 (min (|engine t| * (12 / 10)) 1), round2 (engine t)⟩
        else if engine t ≤ -(3 / 10) then
          ⟨"negative", round2 (min (|engine t| * (12 / 10)) 1), round2 (engine t)⟩
        else
          ⟨"neutral", round2 (1 - |engine t|), round2 (engine t)⟩
      else
        if 1 / 2 ≤ engine t then
          ⟨"positive", round2 (min |engine t| 1), round2 (engine t)⟩
        else if engine t ≤ -(1 / 2) then
          ⟨"negative", round2 (min |engine t| 1), round2 (engine t)⟩
        else
          ⟨"neutral", round2 (1 - |engine t|), round2 (engine t)⟩ := by
  rw [analyze_sentiment, if_neg (by simp [isEmpty_false_of_ne ht])]

/-- Claim C8: for every input string whose trimmed form starts with one of the
ten fixed case-sensitive announcement markers, `clean_text` returns absent
(the empty string), regardless of the length or content of the rest. -/
theorem claim_c8_rejected_start (t p : List Char)
    (hp : p ∈ rejectedStarts) (hpre : isPre p (pyStrip t) = true) :
    clean_text t = [] := by
  have hc : rejectedStarts.any (fun q => isPre q (pyStrip t)) = true :=
    List.any_eq_true.mpr ⟨p, hp, hpre⟩
  rw [clean_text, if_pos hc]

/-- Witness for C8: the concrete input "Breaking: big news story" is rejected. -/
theorem claim_c8_witness : clean_text (("Breaking: big news story").data) = [] :=
  claim_c8_rejected_start (("Breaking: big news story").data) (("Breaking:").data)
    (by decide) (by decide)

/-- Claim C9: summarization of the empty record collection reports the error
condition (`none`, the raised IndexError of `mode()[0]`), never a zero-filled
AggregateSummary; and the analysis flow of `main` bails out with a warning
(`none`) whenever every input row is filtered away by cleaning. -/
theorem claim_c9_empty_summarize :
    summarize [] = none ∧
    ∀ (engine : List Char → ℚ) (texts : List (List Char)),
      (texts.map clean_text).filter (fun t => !t.isEmpty) = [] →
      runAnalysis engine texts = none := by
  constructor
  · rfl
  · intro engine texts h
    simp only [runAnalysis]
    split
    · rfl
    · rw [h]
      rfl

/-- Witness for C9: a single all-filtered input row yields no summary. -/
theorem claim_c9_witness : runAnalysis (fun _ => 0) [("BREAKING: story one").data] = none :=
  claim_c9_empty_summarize.2 (fun _ => 0) [("BREAKING: story one").data] (by decide)

/-- Claim C2 (corrected): `has_opinion` is true iff some word of the fixed
opinion vocabulary occurs as a contiguous substring of the lowercased text —
Python's `in` operator on strings — not as a membership test over the
whitespace-delimited tokens. -/
theorem claim_c2_opinion_substring (t : List Char) :
    hasOpinion t = true ↔ ∃ w ∈ opinionWords, w <:+: pyLower t := by
  rw [hasOpinion, List.any_eq_true]
  constructor
  · rintro ⟨w, hw, hsub⟩
    exact ⟨w, hw, hasSub_iff.mp hsub⟩
  · rintro ⟨w, hw, hinf⟩
    exact ⟨w, hw, hasSub_iff.mpr hinf⟩

/-- Counterexample to claim C2 as stated: "goodnight moon tonight friend" is a
present normalized text (it is its own cleaned form), none of its tokens is in
the opinion vocabulary, yet `has_opinion` is true because "good" occurs inside
"goodnight". -/
theorem claim_c2_counterexample :
    clean_text (("goodnight moon tonight friend").data)
        = ("goodnight moon tonight friend").data ∧
    ("goodnight moon tonight friend").data ≠ [] ∧
    hasOpinion (("goodnight moon tonight friend").data) = true ∧
    hasOpinionTokens (("goodnight moon tonight friend").data) = false := by
  refine ⟨by decide, by decide, by decide, by decide⟩

/-- Claim C4 (corrected): `value_counts` maps exactly the labels that occur to
their occurrence counts — a label with no records is absent from the mapping,
not present with count 0 — and the percentage table assigns
round(count/total*100, 1) to each present label; on the five-record example
counts are {positive 3, neutral 1, negative 1} and percentages
{60.0, 20.0, 20.0}. -/
theorem claim_c4_counts (xs : List String) (hne : xs ≠ []) :
    (∀ v c, (v, c) ∈ valueCounts xs ↔ v ∈ xs ∧ c = xs.count v) ∧
    (∀ v q, (v, q) ∈ pctTable xs ↔
      v ∈ xs ∧ q = round1 ((xs.count v : ℚ) / (xs.length : ℚ) * 100)) ∧
    valueCounts ["positive", "positive", "neutral", "negative", "positive"]
      = [("positive", 3), ("neutral", 1), ("negative", 1)] ∧
    pctTable ["positive", "positive", "neutral", "negative", "positive"]
      = [("positive", 60), ("neutral", 20), ("negative", 20)] := by
  refine ⟨?_, ?_, by decide, ?_⟩
  · intro v c
    rw [valueCounts, List.mem_map]
    constructor
    · rintro ⟨u, hu, he⟩
      rw [Prod.mk.injEq] at he
      obtain ⟨h1, h2⟩ := he
      subst h1
      subst h2
      exact ⟨mem_distincts.mp hu, rfl⟩
    · rintro ⟨hm, rfl⟩
      exact ⟨v, mem_distincts.mpr hm, rfl⟩
  · intro v q
    rw [pctTable, valueCounts, List.map_map, List.mem_map]
    constructor
    · rintro ⟨u, hu, he⟩
      rw [Function.comp_apply, Prod.mk.injEq] at he
      obtain ⟨h1, h2⟩ := he
      subst h1
      subst h2
      exact ⟨mem_distincts.mp hu, rfl⟩
    · rintro ⟨hm, rfl⟩
      exact ⟨v, mem_distincts.mpr hm, rfl⟩
  · have h3 : valueCounts ["positive", "positive", "neutral", "negative", "positive"]
        = [("positive", 3), ("neutral", 1), ("negative", 1)] := by decide
    rw [pctTable, h3]
    simp only [List.map_cons, List.map_nil, List.length_cons, List.length_nil]
    norm_num [round1, rhe]

/-- Counterexample to claim C4 as stated: for the single record "positive",
the counts mapping contains no entry at all for "neutral" or "negative" —
in particular no entry with count 0, as the claim requires. -/
theorem claim_c4_counterexample :
    valueCounts ["positive"] = [("positive", 1)] ∧
    ("neutral") ∉ (valueCounts ["positive"]).map Prod.fst ∧
    ("negative") ∉ (valueCounts ["positive"]).map Prod.fst := by decide

/-- Witness for C4 at the five-record example. -/
theorem claim_c4_witness :
    valueCounts ["positive", "positive", "neutral", "negative", "positive"]
      = [("positive", 3), ("neutral", 1), ("negative", 1)] ∧
    pctTable ["positive", "positive", "neutral", "negative", "positive"]
      = [("positive", 60), ("neutral", 20), ("negative", 20)] := by
  have h := claim_c4_counts ["positive", "positive", "neutral", "negative", "positive"]
    (by decide)
  exact ⟨h.2.2.1, h.2.2.2⟩

/-- Claim C1 (corrected): `mode()[0]` returns a label of maximal count; when
several labels tie for the maximum, the lexicographically smallest label
string among those tied is returned (pandas sorts the modes ascending), so the
tie {positive 2, negative 2} resolves to "negative", not "positive". -/
theorem claim_c1_mode (xs : List String) (hne : xs ≠ []) :
    (∃ m, modeFirst xs = some m ∧ m ∈ xs ∧
      (∀ v ∈ xs, xs.count v ≤ xs.count m) ∧
      (∀ v ∈ xs, xs.count v = xs.count m → strLe m v = true)) ∧
    modeFirst ["positive", "positive", "negative", "negative"] = some ("negative") := by
  constructor
  · obtain ⟨m, h1, h2, h3, h4⟩ := modeFirst_spec xs hne
    refine ⟨m, h1, h2, ?_, ?_⟩
    · intro v hv
      rw [h3]
      exact count_le_maxCount xs v hv
    · intro v hv hvc
      exact h4 v hv (by rw [hvc, h3])
  · decide

/-- Counterexample to claim C1 as stated: on the tie {positive 2, negative 2}
the code returns "negative" (the alphabetically first mode), whereas the claim
requires "positive" (first in the canonical order). -/
theorem claim_c1_counterexample :
    modeFirst ["positive", "positive", "negative", "negative"] = some ("negative") ∧
    some ("negative") ≠ some ("positive") := by decide

/-- Witness for C1 at a concrete non-empty record list. -/
theorem claim_c1_witness :
    ∃ m, modeFirst ["positive", "neutral", "positive"] = some m ∧
      m ∈ ["positive", "neutral", "positive"] ∧
      (∀ v ∈ ["positive", "neutral", "positive"],
        (["positive", "neutral", "positive"] : List String).count v ≤
          (["positive", "neutral", "positive"] : List String).count m) ∧
      (∀ v ∈ ["positive", "neutral", "positive"],
        (["positive", "neutral", "positive"] : List String).count v =
          (["positive", "neutral", "positive"] : List String).count m →
        strLe m v = true) :=
  (claim_c1_mode ["positive", "neutral", "positive"] (by decide)).1

/-- Claim C5: on a present text with engine compound c in [-1, 1]: with an
opinion marker, positive iff c ≥ 0.3, negative iff c ≤ -0.3, else neutral,
with confidence min(|c|*1.2, 1) for non-neutral labels and 1-|c| for neutral;
without a marker, the thresholds are ±0.5 and the non-neutral confidence is
min(|c|, 1); returned confidence and compound are rounded to 2 places. -/
theorem claim_c5_thresholds (engine : List Char → ℚ) (t : List Char) (ht : t ≠ [])
    (hlo : -1 ≤ engine t) (hhi : engine t ≤ 1) :
    (analyze_sentiment engine t).compound = round2 (engine t) ∧
    (hasOpinion t = true →
      ((analyze_sentiment engine t).sentiment = "positive" ↔ 3 / 10 ≤ engine t) ∧
      ((analyze_sentiment engine t).sentiment = "negative" ↔ engine t ≤ -(3 / 10)) ∧
      (¬ 3 / 10 ≤ engine t → ¬ engine t ≤ -(3 / 10) →
        (analyze_sentiment engine t).sentiment = "neutral") ∧
      (((analyze_sentiment engine t).sentiment = "positive" ∨
          (analyze_sentiment engine t).sentiment = "negative") →
        (analyze_sentiment engine t).confidence
          = round2 (min (|engine t| * (12 / 10)) 1)) ∧
      ((analyze_sentiment engine t).sentiment = "neutral" →
        (analyze_sentiment engine t).confidence = round2 (1 - |engine t|))) ∧
    (hasOpinion t = false →
      ((analyze_sentiment engine t).sentiment = "positive" ↔ 1 / 2 ≤ engine t) ∧
      ((analyze_sentiment engine t).sentiment = "negative" ↔ engine t ≤ -(1 / 2)) ∧
      (¬ 1 / 2 ≤ engine t → ¬ engine t ≤ -(1 / 2) →
        (analyze_sentiment engine t).sentiment = "neutral") ∧
      (((analyze_sentiment engine t).sentiment = "positive" ∨
          (analyze_sentiment engine t).sentiment = "negative") →
        (analyze_sentiment engine t).confidence = round2 (min (|engine t|) 1)) ∧
      ((analyze_sentiment engine t).sentiment = "neutral" →
        (analyze_sentiment engine t).confidence = round2 (1 - |engine t|))) := by
  rw [analyze_sentiment_present engine t ht]
  by_cases hop : hasOpinion t = true
  · rw [if_pos hop]
    by_cases hp : 3 / 10 ≤ engine t
    · rw [if_pos hp]
      dsimp only
      refine ⟨rfl, fun _ => ⟨iff_of_true rfl hp, iff_of_false (by decide) (by linarith),
        fun hnp _ => absurd hp hnp, fun _ => rfl, fun he => absurd he (by decide)⟩,
        fun hop' => absurd (hop'.symm.trans hop) (by decide)⟩
    · by_cases hn : engine t ≤ -(3 / 10)
      · rw [if_neg hp, if_pos hn]
        dsimp only
        refine ⟨rfl, fun _ => ⟨iff_of_false (by decide) hp, iff_of_true rfl hn,
          fun _ hnn => absurd hn hnn, fun _ => rfl, fun he => absurd he (by decide)⟩,
          fun hop' => absurd (hop'.symm.trans hop) (by decide)⟩
      · rw [if_neg hp, if_neg hn]
        dsimp only
        refine ⟨rfl, fun _ => ⟨iff_of_false (by decide) hp, iff_of_false (by decide) hn,
          fun _ _ => rfl, ?_, fun _ => rfl⟩,
          fun hop' => absurd (hop'.symm.trans hop) (by decide)⟩
        intro hor
        rcases hor with he | he <;> exact absurd he (by decide)
  · have hop' : hasOpinion t = false := by
      cases hx : hasOpinion t with
      | false => rfl
      | true => exact absurd hx hop
    rw [if_neg hop]
    by_cases hp : 1 / 2 ≤ engine t
    · rw [if_pos hp]
      dsimp only
      refine ⟨rfl, fun hx => absurd (hop'.symm.trans hx).symm (by decide),
        fun _ => ⟨iff_of_true rfl hp, iff_of_false (by decide) (by linarith),
          fun hnp _ => absurd hp hnp, fun _ => rfl, fun he => absurd he (by decide)⟩⟩
    · by_cases hn : engine t ≤ -(1 / 2)
      · rw [if_neg hp, if_pos hn]
        dsimp only
        refine ⟨rfl, fun hx => absurd (hop'.symm.trans hx).symm (by decide),
          fun _ => ⟨iff_of_false (by decide) hp, iff_of_true rfl hn,
            fun _ hnn => absurd hn hnn, fun _ => rfl, fun he => absurd he (by decide)⟩⟩
      · rw [if_neg hp, if_neg hn]
        dsimp only
        refine ⟨rfl, fun hx => absurd (hop'.symm.trans hx).symm (by decide),
          fun _ => ⟨iff_of_false (by decide) hp, iff_of_false (by decide) hn,
            fun _ _ => rfl, ?_, fun _ => rfl⟩⟩
        intro hor
        rcases hor with he | he <;> exact absurd he (by decide)

/-- Witness for C5: engine compound 0.4 on "this is amazing today" (which has
the opinion marker "amazing"): the rounded compound is round2(0.4) and the
label is positive since 0.4 ≥ 0.3. -/
theorem claim_c5_witness :
    (analyze_sentiment (fun _ => 2 / 5) (("this is amazing today").data)).compound
      = round2 (2 / 5) ∧
    ((analyze_sentiment (fun _ => 2 / 5) (("this is amazing today").data)).sentiment
      = "positive" ↔ (3 : ℚ) / 10 ≤ 2 / 5) := by
  have h := claim_c5_thresholds (fun _ => 2 / 5) (("this is amazing today").data)
    (by decide) (by norm_num) (by norm_num)
  exact ⟨h.1, (h.2.1 (by decide)).1⟩

/-- Claim C6: for every input (present or absent), if the engine compound lies
in [-1, 1], the returned confidence lies in [0, 1] and the returned compound
in [-1, 1]. -/
theorem claim_c6_bounds (engine : List Char → ℚ) (t : List Char)
    (hlo : -1 ≤ engine t) (hhi : engine t ≤ 1) :
    (0 ≤ (analyze_sentiment engine t).confidence ∧
      (analyze_sentiment engine t).confidence ≤ 1) ∧
    (-1 ≤ (analyze_sentiment engine t).compound ∧
      (analyze_sentiment engine t).compound ≤ 1) := by
  have habs : |engine t| ≤ 1 := abs_le.mpr ⟨hlo, hhi⟩
  have habs0 : 0 ≤ |engine t| := abs_nonneg _
  by_cases ht : t = []
  · subst ht
    norm_num [analyze_sentiment]
  · rw [analyze_sentiment_present engine t ht]
    split_ifs with h1 h2 h3 h4 h5 <;> dsimp only
    · exact ⟨round2_mem_01 _ (le_min (mul_nonneg habs0 (by norm_num)) (by norm_num))
        (min_le_right _ _), round2_mem_neg11 _ hlo hhi⟩
    · exact ⟨round2_mem_01 _ (le_min (mul_nonneg habs0 (by norm_num)) (by norm_num))
        (min_le_right _ _), round2_mem_neg11 _ hlo hhi⟩
    · exact ⟨round2_mem_01 _ (by linarith) (by linarith), round2_mem_neg11 _ hlo hhi⟩
    · exact ⟨round2_mem_01 _ (le_min habs0 (by norm_num)) (min_le_right _ _),
        round2_mem_neg11 _ hlo hhi⟩
    · exact ⟨round2_mem_01 _ (le_min habs0 (by norm_num)) (min_le_right _ _),
        round2_mem_neg11 _ hlo hhi⟩
    · exact ⟨round2_mem_01 _ (by linarith) (by linarith), round2_mem_neg11 _ hlo hhi⟩

/-- Witness for C6 at a concrete engine and text. -/
theorem claim_c6_witness :
    (0 ≤ (analyze_sentiment (fun _ => 1 / 2) (("a b c").data)).confidence ∧
      (analyze_sentiment (fun _ => 1 / 2) (("a b c").data)).confidence ≤ 1) ∧
    (-1 ≤ (analyze_sentiment (fun _ => 1 / 2) (("a b c").data)).compound ∧
      (analyze_sentiment (fun _ => 1 / 2) (("a b c").data)).compound ≤ 1) :=
  claim_c6_bounds (fun _ => 1 / 2) (("a b c").data) (by norm_num) (by norm_num)

/-- Claim C10: on a present text with engine compound in [-1, 1], a positive
label is only returned with a rounded compound ≥ 0.3 and a negative label only
with a rounded compound ≤ -0.3; a non-neutral label is never paired with a
compound of the opposite sign. -/
theorem claim_c10_sign (engine : List Char → ℚ) (t : List Char) (ht : t ≠ [])
    (hlo : -1 ≤ engine t) (hhi : engine t ≤ 1) :
    ((analyze_sentiment engine t).sentiment = "positive" →
      3 / 10 ≤ (analyze_sentiment engine t).compound) ∧
    ((analyze_sentiment engine t).sentiment = "negative" →
      (analyze_sentiment engine t).compound ≤ -(3 / 10)) := by
  rw [analyze_sentiment_present engine t ht]
  split_ifs with h1 h2 h3 h4 h5 <;> dsimp only
  · exact ⟨fun _ => round2_ge_threshold _ h2, fun he => absurd he (by decide)⟩
  · exact ⟨fun he => absurd he (by decide), fun _ => round2_le_neg_threshold _ h3⟩
  · exact ⟨fun he => absurd he (by decide), fun he => absurd he (by decide)⟩
  · exact ⟨fun _ => round2_ge_threshold _ (by linarith), fun he => absurd he (by decide)⟩
  · exact ⟨fun he => absurd he (by decide), fun _ => round2_le_neg_threshold _ (by linarith)⟩
  · exact ⟨fun he => absurd he (by decide), fun he => absurd he (by decide)⟩

/-- Witness for C10 at a concrete engine and text. -/
theorem claim_c10_witness :
    ((analyze_sentiment (fun _ => 2 / 5) (("this is amazing today").data)).sentiment
        = "positive" →
      3 / 10 ≤ (analyze_sentiment (fun _ => 2 / 5) (("this is amazing today").data)).compound) ∧
    ((analyze_sentiment (fun _ => 2 / 5) (("this is amazing today").data)).sentiment
        = "negative" →
      (analyze_sentiment (fun _ => 2 / 5) (("this is amazing today").data)).compound
        ≤ -(3 / 10)) :=
  claim_c10_sign (fun _ => 2 / 5) (("this is amazing today").data) (by decide)
    (by norm_num) (by norm_num)

/-- Claim C7: a present normalize output contains no substring matching the
URL pattern and has at least 3 whitespace-delimited tokens; when the cleaned
text has fewer than 3 tokens the result is absent; and an input of exactly 3
tokens with no URL match and no rejected announcement marker is returned as
its whitespace-normalized cleaned text, present. -/
theorem claim_c7_invariants (t : List Char) :
    (clean_text t ≠ [] →
      hasURL (clean_text t) = false ∧ 3 ≤ (pySplit (clean_text t)).length) ∧
    ((pySplit (joinSpace (pySplit (stripURLs t)))).length < 3 → clean_text t = []) ∧
    (hasURL t = false →
      rejectedStarts.any (fun p => isPre p (pyStrip t)) = false →
      (pySplit t).length = 3 →
      clean_text t = joinSpace (pySplit t) ∧ clean_text t ≠ []) := by
  refine ⟨?_, ?_, ?_⟩
  · intro h
    obtain ⟨_, he, hlen⟩ := clean_text_present h
    refine ⟨hasURL_clean_text h, ?_⟩
    rw [he]
    exact hlen
  · intro hlen
    rw [clean_text]
    by_cases hrej : rejectedStarts.any (fun p => isPre p (pyStrip t)) = true
    · rw [if_pos hrej]
    · rw [if_neg hrej]
      show (if (pySplit (joinSpace (pySplit (stripURLs t)))).length < 3 then []
        else joinSpace (pySplit (stripURLs t))) = []
      rw [if_pos hlen]
  · intro hurl hrej hlen
    have hid : stripURLs t = t := stripURLs_of_not_hasURL hurl
    have hwf := pySplitAux_wf t [] (by simp)
    have hjs : pySplit (joinSpace (pySplit t)) = pySplit t :=
      pySplit_joinSpace (pySplit t) (fun T hT => hwf T hT)
    have hne : joinSpace (pySplit t) ≠ [] :=
      joinSpace_ne_nil (pySplit t)
        (by
          intro h0
          rw [h0] at hlen
          simp at hlen)
        (fun T hT => (hwf T hT).1)
    have heq : clean_text t = joinSpace (pySplit t) := by
      simp only [clean_text]
      rw [if_neg (by simp [hrej]), hid, if_neg (by rw [hjs, hlen]; omega)]
    exact ⟨heq, heq ▸ hne⟩

/-- Witness for C7: a present output with no URLs and 4 tokens; a 2-token
input rejected; a clean 3-token input returned whitespace-normalized. -/
theorem claim_c7_witness :
    (hasURL (clean_text (("what a great song").data)) = false ∧
      3 ≤ (pySplit (clean_text (("what a great song").data))).length) ∧
    clean_text (("hi there").data) = [] ∧
    (clean_text (("good day friend").data)
        = joinSpace (pySplit (("good day friend").data)) ∧
      clean_text (("good day friend").data) ≠ []) :=
  ⟨(claim_c7_invariants (("what a great song").data)).1 (by decide),
    (claim_c7_invariants (("hi there").data)).2.1 (by decide),
    (claim_c7_invariants (("good day friend").data)).2.2 (by decide) (by decide) (by decide)⟩

/-- Claim C3 (corrected): `clean_text` is idempotent on those present outputs
that do not start with a rejected announcement marker; a present output that
does start with one (possible when a URL or leading whitespace preceded the
marker in the raw input) is mapped to absent by the second pass. -/
theorem claim_c3_idempotent (t : List Char) (h : clean_text t ≠ [])
    (hrej : rejectedStarts.any (fun p => isPre p (pyStrip (clean_text t))) = false) :
    clean_text (clean_text t) = clean_text t := by
  obtain ⟨_, he, hlen⟩ := clean_text_present h
  have hurl : hasURL (clean_text t) = false := hasURL_clean_text h
  have hwf := pySplitAux_wf (stripURLs t) [] (by simp)
  have hsp : pySplit (clean_text t) = pySplit (stripURLs t) := by
    rw [he]
    exact pySplit_joinSpace (pySplit (stripURLs t)) (fun T hT => hwf T hT)
  have key : ∀ (O : List Char), O = clean_text t → clean_text O = O := by
    intro O hO
    have hurlO : hasURL O = false := by rw [hO]; exact hurl
    have hidO : stripURLs O = O := stripURLs_of_not_hasURL hurlO
    have hspO : pySplit O = pySplit (stripURLs t) := by rw [hO]; exact hsp
    have hrejO : rejectedStarts.any (fun p => isPre p (pyStrip O)) = false := by
      rw [hO]
      exact hrej
    have hlenO : 3 ≤ (pySplit (joinSpace (pySplit O))).length := by
      rw [hspO]
      exact hlen
    have hjoinO : joinSpace (pySplit O) = O := by
      rw [hspO, hO, he]
    simp only [clean_text]
    rw [if_neg (by simp [hrejO]), hidO, if_neg (by omega)]
    exact hjoinO
  exact key (clean_text t) rfl

/-- Counterexample to claim C3 as stated: "www.x BREAKING: now a b" cleans to
the present text "BREAKING: now a b" (the URL is stripped), but a second
normalize rejects that output via the announcement-marker rule. -/
theorem claim_c3_counterexample :
    clean_text (("www.x BREAKING: now a b").data) ≠ [] ∧
    clean_text (clean_text (("www.x BREAKING: now a b").data))
      ≠ clean_text (("www.x BREAKING: now a b").data) := by decide

/-- Witness for C3: "I love this song" cleans to itself and is idempotent. -/
theorem claim_c3_witness :
    clean_text (clean_text (("I love this song").data))
      = clean_text (("I love this song").data) :=
  claim_c3_idempotent (("I love this song").data) (by decide) (by decide)

end SentimentApp
